import Mathlib

/-!
A shallow embedding of the point-in-region decision-tree index from
binary_decision_tree.cpp, together with theorems checking the natural
language specification against it.

Modelling conventions:
* C++ int is modelled as Int (no overflow is relevant to the claims).
* std::vector becomes List; vector indexing becomes List.getD with a
  default value; all theorems that depend on an index carry the arity
  hypotheses that make the default irrelevant.
* Raw pointers to child nodes become Option DecisionTreeNode.
* assert failures and null-pointer dereferences are modelled by Option
  results at the level of the owning DecisionTree operations: a C++ run
  that would abort corresponds to a none result.
* Everything lives in namespace BDT because Mathlib already has Interval.
-/

namespace BDT

/-- Interval from the source: a closed integer range with fields left, right. -/
structure Interval where
  left : Int
  right : Int
deriving DecidableEq, Repr

instance : Inhabited Interval := ⟨⟨0, 0⟩⟩

/-- Interval::Contains: left <= x && x <= right. -/
def Interval.Contains (iv : Interval) (x : Int) : Bool :=
  iv.left ≤ x && x ≤ iv.right

/-- Interval::ToTheLeft: the interval is to the left of the point, x > right. -/
def Interval.ToTheLeft (iv : Interval) (x : Int) : Bool :=
  x > iv.right

/-- Interval::ToTheRight: the interval is to the right of the point, x < left. -/
def Interval.ToTheRight (iv : Interval) (x : Int) : Bool :=
  x < iv.left

/-- A region (an area in the source) is a vector of Intervals, one per dimension. -/
abbrev Region := List Interval

/-- Decision from the source: a dimension index and a reference value.
The default constructor produces the invalid sentinel (-1, -1). -/
structure Decision where
  dimension_index : Int
  ref_value : Int
deriving DecidableEq, Repr

/-- Decision::IsValid: dimension_index >= 0. -/
def Decision.IsValid (d : Decision) : Bool :=
  d.dimension_index ≥ 0

/-- The inner loop shared by DecisionTreeNode::CurrentNodeContainsPoint and
BruteContains: a single area contains the point when at every index i below
point.size() the interval at i contains the coordinate at i. -/
def AreaContainsPoint (area : Region) (point : List Int) : Bool :=
  (List.range point.length).all fun i =>
    (area.getD i default).Contains (point.getD i 0)

/-- BruteContains from the source: linear scan over all areas. -/
def BruteContains (point : List Int) (areas : List Region) : Bool :=
  areas.any fun area => AreaContainsPoint area point

/-- DecisionTreeNode from the source: a bucket of areas to check, two owned
nullable children, and a Decision. -/
inductive DecisionTreeNode : Type where
  | mk : (areas_to_check : List Region) → (left : Option DecisionTreeNode) →
      (right : Option DecisionTreeNode) → (decision : Decision) → DecisionTreeNode

def DecisionTreeNode.areas_to_check : DecisionTreeNode → List Region
  | DecisionTreeNode.mk a _ _ _ => a

def DecisionTreeNode.left : DecisionTreeNode → Option DecisionTreeNode
  | DecisionTreeNode.mk _ l _ _ => l

def DecisionTreeNode.right : DecisionTreeNode → Option DecisionTreeNode
  | DecisionTreeNode.mk _ _ r _ => r

def DecisionTreeNode.decision : DecisionTreeNode → Decision
  | DecisionTreeNode.mk _ _ _ d => d

@[simp] theorem DecisionTreeNode.areas_to_check_mk (a l r d) :
    (DecisionTreeNode.mk a l r d).areas_to_check = a := rfl

@[simp] theorem DecisionTreeNode.left_mk (a l r d) :
    (DecisionTreeNode.mk a l r d).left = l := rfl

@[simp] theorem DecisionTreeNode.right_mk (a l r d) :
    (DecisionTreeNode.mk a l r d).right = r := rfl

@[simp] theorem DecisionTreeNode.decision_mk (a l r d) :
    (DecisionTreeNode.mk a l r d).decision = d := rfl

/-- DecisionTreeNode::CurrentNodeContainsPoint: scan the bucket of the node. -/
def DecisionTreeNode.CurrentNodeContainsPoint (node : DecisionTreeNode)
    (point : List Int) : Bool :=
  node.areas_to_check.any fun area => AreaContainsPoint area point

theorem sizeOf_lt_of_left {node lc : DecisionTreeNode}
    (h : node.left = some lc) : sizeOf lc < sizeOf node := by
  cases node with
  | mk a l r d =>
    simp only [DecisionTreeNode.left] at h
    subst h
    simp
    omega

theorem sizeOf_lt_of_right {node rc : DecisionTreeNode}
    (h : node.right = some rc) : sizeOf rc < sizeOf node := by
  cases node with
  | mk a l r d =>
    simp only [DecisionTreeNode.right] at h
    subst h
    simp
    omega

/-- DecisionTreeNode::FindPoint: first check the bucket of the current node,
then return false at an invalid decision, otherwise route strictly left or
strictly right of the reference value; a coordinate equal to the reference
value descends into neither child. -/
def DecisionTreeNode.FindPoint (node : DecisionTreeNode) (point : List Int) : Bool :=
  if node.CurrentNodeContainsPoint point then
    true
  else if !node.decision.IsValid then
    false
  else if point.getD node.decision.dimension_index.toNat 0 < node.decision.ref_value then
    match h : node.left with
    | some lc => lc.FindPoint point
    | none => false
  else if point.getD node.decision.dimension_index.toNat 0 > node.decision.ref_value then
    match h : node.right with
    | some rc => rc.FindPoint point
    | none => false
  else
    false
termination_by sizeOf node
decreasing_by
  · exact sizeOf_lt_of_left h
  · exact sizeOf_lt_of_right h

/-- DecisionTreeNode::SumAreasToCheckSizes: bucket size of this node plus the
recursive sums of the children. -/
def DecisionTreeNode.SumAreasToCheckSizes (node : DecisionTreeNode) : Nat :=
  node.areas_to_check.length +
    (match h : node.left with
     | some lc => lc.SumAreasToCheckSizes
     | none => 0) +
    (match h : node.right with
     | some rc => rc.SumAreasToCheckSizes
     | none => 0)
termination_by sizeOf node
decreasing_by
  · exact sizeOf_lt_of_left h
  · exact sizeOf_lt_of_right h

/-- All areas stored in the buckets of a subtree, in preorder.  Not a source
function; used to state conservation and separation invariants. -/
def storedAreas (node : DecisionTreeNode) : List Region :=
  node.areas_to_check ++
    (match h : node.left with
     | some lc => storedAreas lc
     | none => []) ++
    (match h : node.right with
     | some rc => storedAreas rc
     | none => [])
termination_by sizeOf node
decreasing_by
  · exact sizeOf_lt_of_left h
  · exact sizeOf_lt_of_right h

/-! ### The build algorithm (DecisionTree::BuildTree_) -/

/-- The sorted working copy used in BuildTree_: the areas sorted ascending by
the right end of the interval at dimension_index.  The source uses std::sort
with a strict-less comparator; any sorted reordering yields the same right
bound at every position, so the sort is modelled by insertionSort. -/
def sortedByRightAt (dimension_index : Nat) (areas : List Region) : List Region :=
  List.insertionSort
    (fun a b => (a.getD dimension_index default).right ≤ (b.getD dimension_index default).right)
    areas

/-- The candidate Decision examined by BuildTree_ for one dimension: the
reference value is the right bound at that dimension of the median element
(index (count - 1) / 2) of the sorted working copy, plus one. -/
def candidateDecision (areas : List Region) (dimension_index : Nat) : Decision :=
  Decision.mk dimension_index
    ((((sortedByRightAt dimension_index areas).getD ((areas.length - 1) / 2)
        default).getD dimension_index default).right + 1)

/-- The cut_through_count computed by BuildTree_ for a candidate decision:
how many areas have an interval at that dimension containing the reference
value.  The source counts over the sorted working copy, a permutation of the
input, so counting over the input is the same number. -/
def cutThroughCount (areas : List Region) (dimension_index : Nat) (ref_value : Int) : Nat :=
  (areas.filter fun a => (a.getD dimension_index default).Contains ref_value).length

/-- Abbreviation: the cut-through count of the candidate decision at a
dimension. -/
def cutAt (areas : List Region) (dimension_index : Nat) : Nat :=
  cutThroughCount areas dimension_index (candidateDecision areas dimension_index).ref_value

/-- The dimension scan of BuildTree_: fold over the remaining dimensions,
keeping the first candidate and afterwards any candidate with strictly
smaller cut-through count (strict-less comparison, first dimension wins
ties), exactly as the loop in the source. -/
def bestDecisionLoop (areas : List Region) :
    List Nat → Decision × Int → Decision × Int
  | [], acc => acc
  | d :: rest, (best, bestCount) =>
    if best.dimension_index = -1 ∨ ((cutAt areas d : Int) < bestCount) then
      bestDecisionLoop areas rest (candidateDecision areas d, (cutAt areas d : Int))
    else
      bestDecisionLoop areas rest (best, bestCount)

/-- The best decision selected by the dimension loop of BuildTree_, starting
from the invalid sentinel and best_cut_through_count = -1, with the source
condition best_decision.dimension_index == -1 ||
cut_through_count < best_cut_through_count. -/
def bestDecision (dimension : Nat) (areas : List Region) : Decision :=
  (bestDecisionLoop areas (List.range dimension) (Decision.mk (-1) (-1), -1)).1

/-- Classification used when partitioning areas_to_add: the area straddles
the decision (goes into the bucket of the node). -/
def goesBucket (dec : Decision) (a : Region) : Bool :=
  (a.getD dec.dimension_index.toNat default).Contains dec.ref_value

/-- The area is entirely to the left of the decision hyperplane (the first
else-if branch of the partition loop). -/
def goesLeft (dec : Decision) (a : Region) : Bool :=
  !goesBucket dec a && (a.getD dec.dimension_index.toNat default).ToTheLeft dec.ref_value

/-- The area is entirely to the right of the decision hyperplane (the second
else-if branch of the partition loop). -/
def goesRight (dec : Decision) (a : Region) : Bool :=
  !goesBucket dec a && !(a.getD dec.dimension_index.toNat default).ToTheLeft dec.ref_value &&
    (a.getD dec.dimension_index.toNat default).ToTheRight dec.ref_value

/-- The push_left_areas list built by the partition loop. -/
def pushLeft (dec : Decision) (areas : List Region) : List Region :=
  areas.filter (goesLeft dec)

/-- The push_right_areas list built by the partition loop. -/
def pushRight (dec : Decision) (areas : List Region) : List Region :=
  areas.filter (goesRight dec)

/-- The bucket (node->areas_to_check) filled by the partition loop. -/
def bucketAreas (dec : Decision) (areas : List Region) : List Region :=
  areas.filter (goesBucket dec)

/-- DecisionTree::BuildTree_.  A single area makes a leaf; otherwise the
best decision is selected, the areas are partitioned, the degeneracy guard
keeps everything in this node if one side would receive all areas, and
otherwise children are built recursively from the non-empty sides.  The
entry assertion areas_to_add.size() > 0 is modelled at the call site
(DecisionTree.RebuildTree); on an empty list this function is never reached
by the model theorems. -/
def BuildTree_ (dimension : Nat) (areas_to_add : List Region) : DecisionTreeNode :=
  if areas_to_add.length = 1 then
    DecisionTreeNode.mk areas_to_add none none (Decision.mk (-1) (-1))
  else if h : (pushLeft (bestDecision dimension areas_to_add) areas_to_add).length
        = areas_to_add.length ∨
      (pushRight (bestDecision dimension areas_to_add) areas_to_add).length
        = areas_to_add.length then
    DecisionTreeNode.mk areas_to_add none none (Decision.mk (-1) (-1))
  else
    DecisionTreeNode.mk
      (bucketAreas (bestDecision dimension areas_to_add) areas_to_add)
      (if (pushLeft (bestDecision dimension areas_to_add) areas_to_add).isEmpty then none
       else some (BuildTree_ dimension
         (pushLeft (bestDecision dimension areas_to_add) areas_to_add)))
      (if (pushRight (bestDecision dimension areas_to_add) areas_to_add).isEmpty then none
       else some (BuildTree_ dimension
         (pushRight (bestDecision dimension areas_to_add) areas_to_add)))
      (bestDecision dimension areas_to_add)
termination_by areas_to_add.length
decreasing_by
  · have hle := List.length_filter_le
      (goesLeft (bestDecision dimension areas_to_add)) areas_to_add
    simp only [pushLeft] at h ⊢
    omega
  · have hle := List.length_filter_le
      (goesRight (bestDecision dimension areas_to_add)) areas_to_add
    simp only [pushRight] at h ⊢
    omega

/-! ### The index (class DecisionTree) -/

/-- DecisionTree from the source: the fixed dimension, the dirty flag, the
owned root pointer and the append-only list of all inserted areas. -/
structure DecisionTree where
  dimension_ : Nat
  dirty_ : Bool
  root_ : Option DecisionTreeNode
  areas_ : List Region

/-- The DecisionTree constructor: given dimension, dirty, no root, no areas. -/
def DecisionTree.mkNew (dimension : Nat) : DecisionTree :=
  ⟨dimension, true, none, []⟩

/-- DecisionTree::AddArea: assert the arity, append, set dirty.  A failing
arity assertion is modelled as none. -/
def DecisionTree.AddArea (t : DecisionTree) (area : Region) : Option DecisionTree :=
  if area.length = t.dimension_ then
    some { t with areas_ := t.areas_ ++ [area], dirty_ := true }
  else
    none

/-- DecisionTree::RebuildTree: free the old tree and build a new root from
the full area list.  It does not touch the dirty flag.  The entry assertion
of BuildTree_ (a non-empty area list) fires exactly on the top-level call,
modelled as none here; recursive calls are guarded by non-emptiness checks
in the source. -/
def DecisionTree.RebuildTree (t : DecisionTree) : Option DecisionTree :=
  if t.areas_.length = 0 then
    none
  else
    some { t with root_ := some (BuildTree_ t.dimension_ t.areas_) }

/-- DecisionTree::RebuildTreeIfDirty: rebuild and only then clear the dirty
flag when dirty, otherwise do nothing. -/
def DecisionTree.RebuildTreeIfDirty (t : DecisionTree) : Option DecisionTree :=
  if t.dirty_ then
    (t.RebuildTree).map fun t2 => { t2 with dirty_ := false }
  else
    some t

/-- DecisionTree::ContainsPoint: assert the arity, rebuild if dirty, then
delegate to root_->FindPoint.  A failing arity assertion, a failing rebuild
or a null root dereference is modelled as none.  The returned pair carries
the possibly rebuilt index together with the boolean answer. -/
def DecisionTree.ContainsPoint (t : DecisionTree) (point : List Int) :
    Option (DecisionTree × Bool) :=
  if point.length = t.dimension_ then
    match t.RebuildTreeIfDirty with
    | some t2 =>
      match t2.root_ with
      | some rootNode => some (t2, rootNode.FindPoint point)
      | none => none
    | none => none
  else
    none

/-- DecisionTree::SumAreasToCheckSizes delegates to the root (none models a
null root dereference). -/
def DecisionTree.SumAreasToCheckSizes (t : DecisionTree) : Option Nat :=
  t.root_.map DecisionTreeNode.SumAreasToCheckSizes

/-- DecisionTree::GetAllAreas. -/
def DecisionTree.GetAllAreas (t : DecisionTree) : List Region :=
  t.areas_

/-! ### Basic lemmas -/

/-- The three Interval predicates are exhaustive: an interval that does not
contain x and is not to the left of x is to the right of x (this is why the
assert(false) branches of the source never fire). -/
theorem toTheRight_of_not (iv : Interval) (x : Int)
    (hc : iv.Contains x = false) (hl : iv.ToTheLeft x = false) :
    iv.ToTheRight x = true := by
  simp only [Interval.Contains, Interval.ToTheLeft, Interval.ToTheRight,
    Bool.and_eq_false_iff, decide_eq_false_iff_not, decide_eq_true_eq, not_le, gt_iff_lt] at *
  omega

/-- Every area falls into exactly one of bucket, push_left, push_right. -/
theorem classifyCases (dec : Decision) (a : Region) :
    (goesBucket dec a = true ∧ goesLeft dec a = false ∧ goesRight dec a = false) ∨
    (goesBucket dec a = false ∧ goesLeft dec a = true ∧ goesRight dec a = false) ∨
    (goesBucket dec a = false ∧ goesLeft dec a = false ∧ goesRight dec a = true) := by
  cases hb : goesBucket dec a
  · cases hl : (a.getD dec.dimension_index.toNat default).ToTheLeft dec.ref_value
    · refine Or.inr (Or.inr ⟨rfl, ?_, ?_⟩)
      · simp only [goesLeft, hb, hl, Bool.not_false, Bool.true_and]
      · simp only [goesRight, hb, hl, Bool.not_false, Bool.true_and,
          toTheRight_of_not _ _ hb hl]
    · refine Or.inr (Or.inl ⟨rfl, ?_, ?_⟩)
      · simp only [goesLeft, hb, hl, Bool.not_false, Bool.true_and]
      · simp only [goesRight, hb, hl, Bool.not_false, Bool.true_and, Bool.not_true,
          Bool.false_and]
  · refine Or.inl ⟨rfl, ?_, ?_⟩
    · simp only [goesLeft, hb, Bool.not_true, Bool.false_and]
    · simp only [goesRight, hb, Bool.not_true, Bool.false_and]

/-- The partition of BuildTree_ is a permutation of its input. -/
theorem partitionPerm (dec : Decision) (areas : List Region) :
    List.Perm (bucketAreas dec areas ++ pushLeft dec areas ++ pushRight dec areas) areas := by
  induction areas with
  | nil => simp [bucketAreas, pushLeft, pushRight]
  | cons a rest ih =>
    rcases classifyCases dec a with ⟨h1, h2, h3⟩ | ⟨h1, h2, h3⟩ | ⟨h1, h2, h3⟩
    · simp only [bucketAreas, pushLeft, pushRight] at ih ⊢
      rw [List.filter_cons_of_pos h1, List.filter_cons_of_neg (by simp [h2]),
          List.filter_cons_of_neg (by simp [h3])]
      exact ih.cons a
    · simp only [bucketAreas, pushLeft, pushRight] at ih ⊢
      rw [List.filter_cons_of_neg (by simp [h1]), List.filter_cons_of_pos h2,
          List.filter_cons_of_neg (by simp [h3]), List.append_assoc]
      refine List.Perm.trans List.perm_middle ?_
      refine List.Perm.cons a ?_
      simpa [List.append_assoc] using ih
    · simp only [bucketAreas, pushLeft, pushRight] at ih ⊢
      rw [List.filter_cons_of_neg (by simp [h1]), List.filter_cons_of_neg (by simp [h2]),
          List.filter_cons_of_pos h3]
      refine List.Perm.trans List.perm_middle ?_
      exact ih.cons a

/-- The three partition lists account for every input area exactly once. -/
theorem partitionLength (dec : Decision) (areas : List Region) :
    (bucketAreas dec areas).length + (pushLeft dec areas).length +
      (pushRight dec areas).length = areas.length := by
  have h := (partitionPerm dec areas).length_eq
  simp only [List.length_append] at h
  omega

/-- any is invariant under permutation. -/
theorem permAny {l1 l2 : List Region} (h : List.Perm l1 l2) (f : Region → Bool) :
    l1.any f = l2.any f := by
  cases h1 : l1.any f <;> cases h2 : l2.any f <;> try rfl
  · simp only [List.any_eq_false] at h1
    simp only [List.any_eq_true] at h2
    obtain ⟨a, ha, hfa⟩ := h2
    exact absurd hfa (by simp [h1 a (h.mem_iff.mpr ha)])
  · simp only [List.any_eq_false] at h2
    simp only [List.any_eq_true] at h1
    obtain ⟨a, ha, hfa⟩ := h1
    exact absurd hfa (by simp [h2 a (h.mem_iff.mp ha)])

/-! ### Characterisation of the dimension-selection loop -/

/-- First-wins argmin over a running best d0 and remaining candidates. -/
def argminFirst (f : Nat → Nat) : Nat → List Nat → Nat
  | d0, [] => d0
  | d0, d :: rest => if f d < f d0 then argminFirst f d rest else argminFirst f d0 rest

theorem argminFirst_mem (f : Nat → Nat) :
    ∀ (dims : List Nat) (d0 : Nat), argminFirst f d0 dims ∈ d0 :: dims := by
  intro dims
  induction dims with
  | nil => intro d0; simp [argminFirst]
  | cons d rest ih =>
    intro d0
    rw [argminFirst]
    split
    · have := ih d
      simp only [List.mem_cons] at this ⊢
      tauto
    · have := ih d0
      simp only [List.mem_cons] at this ⊢
      tauto

theorem argminFirst_le (f : Nat → Nat) :
    ∀ (dims : List Nat) (d0 : Nat),
      f (argminFirst f d0 dims) ≤ f d0 ∧ ∀ d ∈ dims, f (argminFirst f d0 dims) ≤ f d := by
  intro dims
  induction dims with
  | nil => intro d0; simp [argminFirst]
  | cons d rest ih =>
    intro d0
    rw [argminFirst]
    split
    · rename_i hlt
      obtain ⟨h1, h2⟩ := ih d
      exact ⟨le_trans h1 (le_of_lt hlt), by
        intro e he
        rcases List.mem_cons.mp he with rfl | he2
        · exact h1
        · exact h2 e he2⟩
    · rename_i hge
      obtain ⟨h1, h2⟩ := ih d0
      exact ⟨h1, by
        intro e he
        rcases List.mem_cons.mp he with rfl | he2
        · exact le_trans h1 (le_of_not_lt hge)
        · exact h2 e he2⟩

theorem argminFirst_strict (f : Nat → Nat) :
    ∀ (dims : List Nat) (d0 : Nat),
      argminFirst f d0 dims = d0 ∨ f (argminFirst f d0 dims) < f d0 := by
  intro dims
  induction dims with
  | nil => intro d0; simp [argminFirst]
  | cons d rest ih =>
    intro d0
    rw [argminFirst]
    split
    · rename_i hlt
      rcases ih d with heq | hlt2
      · exact Or.inr (by rw [heq]; exact hlt)
      · exact Or.inr (lt_trans hlt2 hlt)
    · exact ih d0

/-- The first candidate wins ties: any dimension smaller than the returned
argmin has a strictly larger value, provided the candidate list is
increasing and entirely above the running best. -/
theorem argminFirst_tie (f : Nat → Nat) :
    ∀ (dims : List Nat) (d0 : Nat), (∀ d ∈ dims, d0 < d) →
      List.Pairwise (· < ·) dims →
      ∀ d, d ∈ d0 :: dims → d < argminFirst f d0 dims →
        f (argminFirst f d0 dims) < f d := by
  intro dims
  induction dims with
  | nil =>
    intro d0 _ _ d hd hlt
    simp only [argminFirst] at hlt ⊢
    simp only [List.mem_singleton] at hd
    omega
  | cons d1 rest ih =>
    intro d0 habove hpw d hd hlt
    have hd01 : d0 < d1 := habove d1 (by simp)
    have hrest_above1 : ∀ e ∈ rest, d1 < e := fun e he =>
      (List.pairwise_cons.mp hpw).1 e he
    have hpw_rest : List.Pairwise (· < ·) rest := (List.pairwise_cons.mp hpw).2
    rw [argminFirst] at hlt ⊢
    by_cases hcmp : f d1 < f d0
    · rw [if_pos hcmp] at hlt ⊢
      rcases List.mem_cons.mp hd with h0 | hd2
      · have h1 := (argminFirst_le f rest d1).1
        rw [h0]
        omega
      · exact ih d1 hrest_above1 hpw_rest d hd2 hlt
    · rw [if_neg hcmp] at hlt ⊢
      have hrest_above0 : ∀ e ∈ rest, d0 < e := fun e he =>
        lt_trans hd01 (hrest_above1 e he)
      rcases List.mem_cons.mp hd with h0 | hd2
      · rcases argminFirst_strict f rest d0 with heq | hstrict
        · rw [heq, ← h0] at hlt
          omega
        · rw [h0]
          omega
      · rcases List.mem_cons.mp hd2 with h1 | hd3
        · rcases argminFirst_strict f rest d0 with heq | hstrict
          · rw [heq] at hlt
            omega
          · rw [h1]
            omega
        · exact ih d0 hrest_above0 hpw_rest d (List.mem_cons.mpr (Or.inr hd3)) hlt

/-- Unfolding the loop from a valid accumulator that is the candidate of an
already-seen dimension: the loop computes the first-wins argmin of the
cut-through counts. -/
theorem bestDecisionLoop_eq_argmin (areas : List Region) :
    ∀ (dims : List Nat) (d0 : Nat),
      bestDecisionLoop areas dims (candidateDecision areas d0, (cutAt areas d0 : Int)) =
        (candidateDecision areas (argminFirst (cutAt areas) d0 dims),
         (cutAt areas (argminFirst (cutAt areas) d0 dims) : Int)) := by
  intro dims
  induction dims with
  | nil => intro d0; simp [bestDecisionLoop, argminFirst]
  | cons d rest ih =>
    intro d0
    rw [bestDecisionLoop, argminFirst]
    have hdim : (candidateDecision areas d0).dimension_index = (d0 : Int) := rfl
    by_cases hcmp : cutAt areas d < cutAt areas d0
    · rw [if_pos (Or.inr (by exact_mod_cast hcmp)), if_pos hcmp]
      exact ih d
    · rw [if_neg (by
            push_neg
            refine ⟨by rw [hdim]; omega, ?_⟩
            exact_mod_cast Nat.le_of_not_lt hcmp),
          if_neg hcmp]
      exact ih d0

/-- The best decision of the dimension loop, characterised: for a positive
dimension count it is the candidate of a dimension below the count whose
cut-through count is minimal, the earliest such dimension. -/
theorem bestDecision_spec (dimension : Nat) (areas : List Region)
    (hD : 0 < dimension) :
    ∃ dStar : Nat, dStar < dimension ∧
      bestDecision dimension areas = candidateDecision areas dStar ∧
      (∀ d : Nat, d < dimension → cutAt areas dStar ≤ cutAt areas d) ∧
      (∀ d : Nat, d < dStar → cutAt areas dStar < cutAt areas d) := by
  obtain ⟨k, rfl⟩ : ∃ k, dimension = k + 1 :=
    ⟨dimension - 1, (Nat.succ_pred_eq_of_pos hD).symm⟩
  have hrange : List.range (k + 1) = 0 :: List.map Nat.succ (List.range k) :=
    List.range_succ_eq_map k
  set dims := List.map Nat.succ (List.range k) with hdims
  have habove : ∀ d ∈ dims, 0 < d := by
    intro d hd
    simp only [hdims, List.mem_map] at hd
    obtain ⟨j, _, rfl⟩ := hd
    omega
  have hpw : List.Pairwise (· < ·) dims := by
    refine List.Pairwise.map Nat.succ ?_ (List.pairwise_lt_range k)
    intro a b hab
    omega
  set dStar := argminFirst (cutAt areas) 0 dims with hdStar
  have hmem : dStar ∈ 0 :: dims := argminFirst_mem (cutAt areas) dims 0
  have hlt : dStar < k + 1 := by
    rcases List.mem_cons.mp hmem with h0 | hmemd
    · omega
    · simp only [hdims, List.mem_map] at hmemd
      obtain ⟨j, hj, hj2⟩ := hmemd
      have := List.mem_range.mp hj
      omega
  refine ⟨dStar, hlt, ?_, ?_, ?_⟩
  · rw [bestDecision, hrange, bestDecisionLoop]
    rw [if_pos (Or.inl rfl), bestDecisionLoop_eq_argmin areas dims 0]
  · intro d hd
    have hmemall : d ∈ 0 :: dims := by
      rw [← hrange]
      exact List.mem_range.mpr hd
    rcases List.mem_cons.mp hmemall with rfl | hmemd
    · exact (argminFirst_le (cutAt areas) dims 0).1
    · exact (argminFirst_le (cutAt areas) dims 0).2 d hmemd
  · intro d hd
    have hmemall : d ∈ 0 :: dims := by
      rw [← hrange]
      exact List.mem_range.mpr (lt_trans hd hlt)
    exact argminFirst_tie (cutAt areas) dims 0 habove hpw d hmemall hd

/-! ### Query lemmas -/

@[simp] theorem CurrentNodeContainsPoint_mk (b : List Region)
    (l r : Option DecisionTreeNode) (d : Decision) (p : List Int) :
    (DecisionTreeNode.mk b l r d).CurrentNodeContainsPoint p = BruteContains p b := rfl

/-- One unfolding of FindPoint. -/
theorem FindPoint_eq (node : DecisionTreeNode) (p : List Int) :
    node.FindPoint p =
      (if node.CurrentNodeContainsPoint p then true
       else if !node.decision.IsValid then false
       else if p.getD node.decision.dimension_index.toNat 0 < node.decision.ref_value then
         (match node.left with
          | some lc => lc.FindPoint p
          | none => false)
       else if p.getD node.decision.dimension_index.toNat 0 > node.decision.ref_value then
         (match node.right with
          | some rc => rc.FindPoint p
          | none => false)
       else false) := by
  rw [DecisionTreeNode.FindPoint]
  cases hl : node.left <;> cases hr : node.right <;> rfl

/-- FindPoint on a node with the invalid sentinel decision and no children is
the brute-force scan of its bucket. -/
theorem FindPoint_leaf (b : List Region) (p : List Int) :
    (DecisionTreeNode.mk b none none (Decision.mk (-1) (-1))).FindPoint p
      = BruteContains p b := by
  rw [FindPoint_eq]
  simp [Decision.IsValid]

/-- A single failing coordinate refutes AreaContainsPoint. -/
theorem areaContainsPoint_false_at (a : Region) (p : List Int) (i : Nat)
    (hi : i < p.length)
    (h : (a.getD i default).Contains (p.getD i 0) = false) :
    AreaContainsPoint a p = false := by
  cases hall : AreaContainsPoint a p
  · rfl
  · exfalso
    rw [AreaContainsPoint, List.all_eq_true] at hall
    have hat := hall i (List.mem_range.mpr hi)
    simp only [h] at hat
    exact Bool.false_ne_true hat

/-- No area pushed right matches a point whose split coordinate is at most
the reference value. -/
theorem brute_pushRight_false (dec : Decision) (areas : List Region) (p : List Int)
    (hdi : dec.dimension_index.toNat < p.length)
    (hx : p.getD dec.dimension_index.toNat 0 ≤ dec.ref_value) :
    BruteContains p (pushRight dec areas) = false := by
  rw [BruteContains, List.any_eq_false]
  intro a ha
  obtain ⟨hmem, hgr⟩ := List.mem_filter.mp ha
  simp only [goesRight, Bool.and_eq_true] at hgr
  obtain ⟨-, hR⟩ := hgr
  simp only [Interval.ToTheRight, decide_eq_true_eq] at hR
  simp only [Bool.not_eq_true]
  apply areaContainsPoint_false_at a p dec.dimension_index.toNat hdi
  simp only [Interval.Contains, Bool.and_eq_false_iff, decide_eq_false_iff_not, not_le]
  left
  omega

/-- No area pushed left matches a point whose split coordinate is at least
the reference value. -/
theorem brute_pushLeft_false (dec : Decision) (areas : List Region) (p : List Int)
    (hdi : dec.dimension_index.toNat < p.length)
    (hx : dec.ref_value ≤ p.getD dec.dimension_index.toNat 0) :
    BruteContains p (pushLeft dec areas) = false := by
  rw [BruteContains, List.any_eq_false]
  intro a ha
  obtain ⟨hmem, hgl⟩ := List.mem_filter.mp ha
  simp only [goesLeft, Bool.and_eq_true] at hgl
  obtain ⟨-, hL⟩ := hgl
  simp only [Interval.ToTheLeft, gt_iff_lt, decide_eq_true_eq] at hL
  simp only [Bool.not_eq_true]
  apply areaContainsPoint_false_at a p dec.dimension_index.toNat hdi
  simp only [Interval.Contains, Bool.and_eq_false_iff, decide_eq_false_iff_not, not_le]
  right
  omega

/-- Splitting the brute-force scan along the partition of BuildTree_. -/
theorem brute_partition (dec : Decision) (areas : List Region) (p : List Int) :
    BruteContains p areas =
      (BruteContains p (bucketAreas dec areas) || BruteContains p (pushLeft dec areas) ||
        BruteContains p (pushRight dec areas)) := by
  rw [BruteContains, ← permAny (partitionPerm dec areas)]
  simp [BruteContains, List.any_append, Bool.or_assoc]

/-- The central functional-correctness lemma: a query on a tree built from
any area list agrees with the brute-force linear scan of that list, for any
point of the right arity (dimension at least one). -/
theorem findPoint_buildTree (D : Nat) (hD : 0 < D) :
    ∀ (n : Nat) (areas : List Region) (p : List Int), areas.length = n → p.length = D →
      (BuildTree_ D areas).FindPoint p = BruteContains p areas := by
  intro n
  induction n using Nat.strong_induction_on with
  | _ n ih =>
    intro areas p hn hp
    rw [BuildTree_]
    split
    · exact FindPoint_leaf areas p
    · split
      · exact FindPoint_leaf areas p
      · rename_i hlen hguard
        obtain ⟨dS, hdS, hbest, -, -⟩ := bestDecision_spec D areas hD
        have hdim : (bestDecision D areas).dimension_index = (dS : Int) := by
          rw [hbest]; rfl
        have hdi : (bestDecision D areas).dimension_index.toNat = dS := by
          rw [hdim]; simp
        have hvalid : (bestDecision D areas).IsValid = true := by
          rw [Decision.IsValid, hdim]
          simp
        have hdilt : (bestDecision D areas).dimension_index.toNat < p.length := by
          rw [hdi, hp]; exact hdS
        rw [FindPoint_eq]
        simp only [CurrentNodeContainsPoint_mk, DecisionTreeNode.decision_mk,
          DecisionTreeNode.left_mk, DecisionTreeNode.right_mk, hvalid, Bool.not_true,
          Bool.false_eq_true, if_false]
        rw [brute_partition (bestDecision D areas) areas p]
        by_cases hB : BruteContains p (bucketAreas (bestDecision D areas) areas) = true
        · rw [if_pos hB, hB]
          simp
        · rw [if_neg hB]
          rw [Bool.not_eq_true] at hB
          rw [hB]
          simp only [Bool.false_or]
          have hple := List.length_filter_le (goesLeft (bestDecision D areas)) areas
          have hpre := List.length_filter_le (goesRight (bestDecision D areas)) areas
          push_neg at hguard
          rcases lt_trichotomy (p.getD (bestDecision D areas).dimension_index.toNat 0)
              (bestDecision D areas).ref_value with hxy | hxy | hxy
          · rw [if_pos hxy]
            rw [brute_pushRight_false _ areas p hdilt (le_of_lt hxy), Bool.or_false]
            by_cases hemp : (pushLeft (bestDecision D areas) areas).isEmpty
            · rw [if_pos hemp]
              rw [List.isEmpty_iff] at hemp
              simp [hemp, BruteContains]
            · rw [if_neg hemp]
              exact ih (pushLeft (bestDecision D areas) areas).length
                (by
                  simp only [pushLeft] at *
                  omega)
                _ p rfl hp
          · rw [if_neg (by omega), if_neg (by omega)]
            rw [brute_pushRight_false _ areas p hdilt (le_of_eq hxy),
              brute_pushLeft_false _ areas p hdilt (ge_of_eq hxy)]
            rfl
          · rw [if_neg (by omega), if_pos hxy]
            rw [brute_pushLeft_false _ areas p hdilt (le_of_lt hxy), Bool.false_or]
            by_cases hemp : (pushRight (bestDecision D areas) areas).isEmpty
            · rw [if_pos hemp]
              rw [List.isEmpty_iff] at hemp
              simp [hemp, BruteContains]
            · rw [if_neg hemp]
              exact ih (pushRight (bestDecision D areas) areas).length
                (by
                  simp only [pushRight] at *
                  omega)
                _ p rfl hp

/-! ### Bucket conservation -/

theorem storedAreas_mk (b : List Region) (l r : Option DecisionTreeNode) (d : Decision) :
    storedAreas (DecisionTreeNode.mk b l r d) =
      b ++ (match l with | some lc => storedAreas lc | none => []) ++
        (match r with | some rc => storedAreas rc | none => []) := by
  rw [storedAreas]
  cases l <;> cases r <;> rfl

theorem SumAreasToCheckSizes_mk (b : List Region) (l r : Option DecisionTreeNode)
    (d : Decision) :
    (DecisionTreeNode.mk b l r d).SumAreasToCheckSizes =
      b.length + (match l with | some lc => lc.SumAreasToCheckSizes | none => 0) +
        (match r with | some rc => rc.SumAreasToCheckSizes | none => 0) := by
  rw [DecisionTreeNode.SumAreasToCheckSizes]
  cases l <;> cases r <;> rfl

/-- The buckets of a built tree hold exactly the input areas (up to order). -/
theorem storedAreas_buildTree (D : Nat) :
    ∀ (n : Nat) (areas : List Region), areas.length = n →
      List.Perm (storedAreas (BuildTree_ D areas)) areas := by
  intro n
  induction n using Nat.strong_induction_on with
  | _ n ih =>
    intro areas hn
    rw [BuildTree_]
    split
    · rw [storedAreas_mk]
      simp
    · split
      · rw [storedAreas_mk]
        simp
      · rename_i hlen hguard
        rw [storedAreas_mk]
        push_neg at hguard
        have hple := List.length_filter_le (goesLeft (bestDecision D areas)) areas
        have hpre := List.length_filter_le (goesRight (bestDecision D areas)) areas
        have hX : List.Perm
            (match (if (pushLeft (bestDecision D areas) areas).isEmpty then none
                else some (BuildTree_ D (pushLeft (bestDecision D areas) areas)) :
                  Option DecisionTreeNode) with
             | some lc => storedAreas lc
             | none => []) (pushLeft (bestDecision D areas) areas) := by
          by_cases hemp : (pushLeft (bestDecision D areas) areas).isEmpty
          · rw [if_pos hemp]
            rw [List.isEmpty_iff] at hemp
            simp [hemp]
          · rw [if_neg hemp]
            exact ih _ (by simp only [pushLeft] at *; omega) _ rfl
        have hY : List.Perm
            (match (if (pushRight (bestDecision D areas) areas).isEmpty then none
                else some (BuildTree_ D (pushRight (bestDecision D areas) areas)) :
                  Option DecisionTreeNode) with
             | some rc => storedAreas rc
             | none => []) (pushRight (bestDecision D areas) areas) := by
          by_cases hemp : (pushRight (bestDecision D areas) areas).isEmpty
          · rw [if_pos hemp]
            rw [List.isEmpty_iff] at hemp
            simp [hemp]
          · rw [if_neg hemp]
            exact ih _ (by simp only [pushRight] at *; omega) _ rfl
        exact (List.Perm.append (List.Perm.append (List.Perm.refl _) hX) hY).trans
          (partitionPerm (bestDecision D areas) areas)

/-- The recursive bucket-size sum of a built tree is the input size. -/
theorem sumAreas_buildTree (D : Nat) :
    ∀ (n : Nat) (areas : List Region), areas.length = n →
      (BuildTree_ D areas).SumAreasToCheckSizes = areas.length := by
  intro n
  induction n using Nat.strong_induction_on with
  | _ n ih =>
    intro areas hn
    rw [BuildTree_]
    split
    · rw [SumAreasToCheckSizes_mk]
      simp
    · split
      · rw [SumAreasToCheckSizes_mk]
        simp
      · rename_i hlen hguard
        rw [SumAreasToCheckSizes_mk]
        push_neg at hguard
        have hple := List.length_filter_le (goesLeft (bestDecision D areas)) areas
        have hpre := List.length_filter_le (goesRight (bestDecision D areas)) areas
        have hX : (match (if (pushLeft (bestDecision D areas) areas).isEmpty then none
                else some (BuildTree_ D (pushLeft (bestDecision D areas) areas)) :
                  Option DecisionTreeNode) with
             | some lc => lc.SumAreasToCheckSizes
             | none => 0) = (pushLeft (bestDecision D areas) areas).length := by
          by_cases hemp : (pushLeft (bestDecision D areas) areas).isEmpty
          · rw [if_pos hemp]
            rw [List.isEmpty_iff] at hemp
            simp [hemp]
          · rw [if_neg hemp]
            exact ih _ (by simp only [pushLeft] at *; omega) _ rfl
        have hY : (match (if (pushRight (bestDecision D areas) areas).isEmpty then none
                else some (BuildTree_ D (pushRight (bestDecision D areas) areas)) :
                  Option DecisionTreeNode) with
             | some rc => rc.SumAreasToCheckSizes
             | none => 0) = (pushRight (bestDecision D areas) areas).length := by
          by_cases hemp : (pushRight (bestDecision D areas) areas).isEmpty
          · rw [if_pos hemp]
            rw [List.isEmpty_iff] at hemp
            simp [hemp]
          · rw [if_neg hemp]
            exact ih _ (by simp only [pushRight] at *; omega) _ rfl
        rw [hX, hY]
        have := partitionLength (bestDecision D areas) areas
        simp only [bucketAreas, pushLeft, pushRight] at *
        omega

/-! ### Separation invariant of built trees -/

/-- The areas stored beneath an optional child. -/
def optStored : Option DecisionTreeNode → List Region
  | some n => storedAreas n
  | none => []

/-- The separation invariant: wherever a node carries a valid decision, all
areas stored in its left subtree end strictly below the reference value at
the split dimension, all areas stored in its right subtree begin strictly
above it, and any area stored at-or-below the node that contains the
reference value at the split dimension sits in the bucket of that node. -/
def NodeInv (node : DecisionTreeNode) : Prop :=
  (node.decision.IsValid = true →
    (∀ a ∈ optStored node.left,
      (a.getD node.decision.dimension_index.toNat default).right < node.decision.ref_value) ∧
    (∀ a ∈ optStored node.right,
      node.decision.ref_value < (a.getD node.decision.dimension_index.toNat default).left) ∧
    (∀ a, (a ∈ node.areas_to_check ∨ a ∈ optStored node.left ∨ a ∈ optStored node.right) →
      (a.getD node.decision.dimension_index.toNat default).Contains node.decision.ref_value
        = true →
      a ∈ node.areas_to_check)) ∧
  (match h : node.left with
   | some lc => NodeInv lc
   | none => True) ∧
  (match h : node.right with
   | some rc => NodeInv rc
   | none => True)
termination_by sizeOf node
decreasing_by
  · exact sizeOf_lt_of_left h
  · exact sizeOf_lt_of_right h

theorem NodeInv_mk (b : List Region) (l r : Option DecisionTreeNode) (d : Decision) :
    NodeInv (DecisionTreeNode.mk b l r d) ↔
      ((d.IsValid = true →
        (∀ a ∈ optStored l, (a.getD d.dimension_index.toNat default).right < d.ref_value) ∧
        (∀ a ∈ optStored r, d.ref_value < (a.getD d.dimension_index.toNat default).left) ∧
        (∀ a, (a ∈ b ∨ a ∈ optStored l ∨ a ∈ optStored r) →
          (a.getD d.dimension_index.toNat default).Contains d.ref_value = true → a ∈ b)) ∧
      (match l with | some lc => NodeInv lc | none => True) ∧
      (match r with | some rc => NodeInv rc | none => True)) := by
  rw [NodeInv]
  cases l <;> cases r <;> rfl

/-- A leaf-shaped node with the sentinel decision satisfies the invariant. -/
theorem NodeInv_leaf (b : List Region) :
    NodeInv (DecisionTreeNode.mk b none none (Decision.mk (-1) (-1))) := by
  rw [NodeInv_mk]
  refine ⟨?_, trivial, trivial⟩
  intro hval
  exact absurd hval (by simp [Decision.IsValid])

/-- Every tree built by BuildTree_ satisfies the separation invariant. -/
theorem nodeInv_buildTree (D : Nat) :
    ∀ (n : Nat) (areas : List Region), areas.length = n →
      NodeInv (BuildTree_ D areas) := by
  intro n
  induction n using Nat.strong_induction_on with
  | _ n ih =>
    intro areas hn
    rw [BuildTree_]
    split
    · exact NodeInv_leaf areas
    · split
      · exact NodeInv_leaf areas
      · rename_i hlen hguard
        push_neg at hguard
        have hple := List.length_filter_le (goesLeft (bestDecision D areas)) areas
        have hpre := List.length_filter_le (goesRight (bestDecision D areas)) areas
        rw [NodeInv_mk]
        have hmemL : ∀ a, a ∈ optStored (if (pushLeft (bestDecision D areas) areas).isEmpty
              then none else some (BuildTree_ D (pushLeft (bestDecision D areas) areas))) →
            goesLeft (bestDecision D areas) a = true := by
          intro a ha
          by_cases hemp : (pushLeft (bestDecision D areas) areas).isEmpty
          · rw [if_pos hemp] at ha
            exact absurd ha (by simp [optStored])
          · rw [if_neg hemp] at ha
            rw [optStored] at ha
            have hperm := storedAreas_buildTree D
              (pushLeft (bestDecision D areas) areas).length _ rfl
            have hmem : a ∈ pushLeft (bestDecision D areas) areas := hperm.mem_iff.mp ha
            exact (List.mem_filter.mp hmem).2
        have hmemR : ∀ a, a ∈ optStored (if (pushRight (bestDecision D areas) areas).isEmpty
              then none else some (BuildTree_ D (pushRight (bestDecision D areas) areas))) →
            goesRight (bestDecision D areas) a = true := by
          intro a ha
          by_cases hemp : (pushRight (bestDecision D areas) areas).isEmpty
          · rw [if_pos hemp] at ha
            exact absurd ha (by simp [optStored])
          · rw [if_neg hemp] at ha
            rw [optStored] at ha
            have hperm := storedAreas_buildTree D
              (pushRight (bestDecision D areas) areas).length _ rfl
            have hmem : a ∈ pushRight (bestDecision D areas) areas := hperm.mem_iff.mp ha
            exact (List.mem_filter.mp hmem).2
        refine ⟨?_, ?_, ?_⟩
        · intro hval
          refine ⟨?_, ?_, ?_⟩
          · intro a ha
            have hgl := hmemL a ha
            simp only [goesLeft, Bool.and_eq_true] at hgl
            have hL := hgl.2
            simp only [Interval.ToTheLeft, gt_iff_lt, decide_eq_true_eq] at hL
            exact hL
          · intro a ha
            have hgr := hmemR a ha
            simp only [goesRight, Bool.and_eq_true] at hgr
            have hR := hgr.2
            simp only [Interval.ToTheRight, decide_eq_true_eq] at hR
            exact hR
          · intro a hmem hcont
            rcases hmem with hb | hl | hr
            · exact hb
            · have hgl := hmemL a hl
              simp only [goesLeft, Bool.and_eq_true, Bool.not_eq_true'] at hgl
              rw [goesBucket, hcont] at hgl
              exact absurd hgl.1 (by simp)
            · have hgr := hmemR a hr
              simp only [goesRight, Bool.and_eq_true, Bool.not_eq_true'] at hgr
              rw [goesBucket, hcont] at hgr
              exact absurd hgr.1.1 (by simp)
        · by_cases hemp : (pushLeft (bestDecision D areas) areas).isEmpty
          · rw [if_pos hemp]
            trivial
          · rw [if_neg hemp]
            exact ih _ (by simp only [pushLeft] at *; omega) _ rfl
        · by_cases hemp : (pushRight (bestDecision D areas) areas).isEmpty
          · rw [if_pos hemp]
            trivial
          · rw [if_neg hemp]
            exact ih _ (by simp only [pushRight] at *; omega) _ rfl

/-- The states of a DecisionTree reachable through its public interface:
construction, insertion, explicit or implicit rebuilds, and queries. -/
inductive Reachable : DecisionTree → Prop where
  | init (dimension : Nat) : Reachable (DecisionTree.mkNew dimension)
  | add {t t2 : DecisionTree} {a : Region} :
      Reachable t → t.AddArea a = some t2 → Reachable t2
  | rebuild {t t2 : DecisionTree} :
      Reachable t → t.RebuildTree = some t2 → Reachable t2
  | rebuildIfDirty {t t2 : DecisionTree} :
      Reachable t → t.RebuildTreeIfDirty = some t2 → Reachable t2
  | query {t t2 : DecisionTree} {p : List Int} {b : Bool} :
      Reachable t → t.ContainsPoint p = some (t2, b) → Reachable t2

/-- The root stored by a clean index is exactly the tree built from its area
list. -/
def RootCorrect (t : DecisionTree) : Prop :=
  t.root_ = some (BuildTree_ t.dimension_ t.areas_) ∧ t.areas_ ≠ []

theorem rebuildTree_some {t t2 : DecisionTree} (h : t.RebuildTree = some t2) :
    t2 = { t with root_ := some (BuildTree_ t.dimension_ t.areas_) } ∧ t.areas_ ≠ [] := by
  rw [DecisionTree.RebuildTree] at h
  split at h
  · exact absurd h (by simp)
  · rename_i hne
    refine ⟨by injection h with h2; exact h2.symm, ?_⟩
    intro hcon
    rw [hcon] at hne
    simp at hne

theorem rebuildIfDirty_some {t t2 : DecisionTree} (h : t.RebuildTreeIfDirty = some t2)
    (hstate : t.dirty_ = true ∨ RootCorrect t) :
    RootCorrect t2 ∧ t2.dirty_ = false ∧ t2.areas_ = t.areas_ ∧
      t2.dimension_ = t.dimension_ := by
  rw [DecisionTree.RebuildTreeIfDirty] at h
  split at h
  · rename_i hdirty
    cases hreb : t.RebuildTree with
    | none => rw [hreb] at h; exact absurd h (by simp)
    | some t3 =>
      rw [hreb] at h
      obtain ⟨ht3, hne⟩ := rebuildTree_some hreb
      simp only [Option.map_some'] at h
      subst ht3
      injection h with h2
      subst h2
      exact ⟨⟨rfl, hne⟩, rfl, rfl, rfl⟩
  · rename_i hdirty
    injection h with h2
    subst h2
    rcases hstate with hd | hroot
    · exact absurd hd hdirty
    · exact ⟨hroot, by simpa using hdirty, rfl, rfl⟩

/-- State invariant of every reachable index: it is dirty, or its root is
the tree built from its (non-empty) area list. -/
theorem reachable_inv {t : DecisionTree} (h : Reachable t) :
    t.dirty_ = true ∨ RootCorrect t := by
  induction h with
  | init dimension => exact Or.inl rfl
  | add hr hadd ih =>
    rename_i t t2 a
    rw [DecisionTree.AddArea] at hadd
    split at hadd
    · injection hadd with h2
      subst h2
      exact Or.inl rfl
    · exact absurd hadd (by simp)
  | rebuild hr hreb ih =>
    rename_i t t2
    obtain ⟨ht2, hne⟩ := rebuildTree_some hreb
    subst ht2
    exact Or.inr ⟨rfl, hne⟩
  | rebuildIfDirty hr hreb ih =>
    exact Or.inr (rebuildIfDirty_some hreb ih).1
  | query hr hq ih =>
    rename_i t t2 p b
    rw [DecisionTree.ContainsPoint] at hq
    split at hq
    · split at hq
      · rename_i t3 hById
        split at hq
        · rename_i rootNode hroot
          injection hq with h2
          have h3 : t3 = t2 := congrArg Prod.fst h2
          subst h3
          exact Or.inr (rebuildIfDirty_some hById ih).1
        · exact absurd hq (by simp)
      · exact absurd hq (by simp)
    · exact absurd hq (by simp)

/-- ContainsPoint on a reachable, non-empty index of positive dimension
returns the brute-force answer over the full inserted list. -/
theorem containsPoint_spec {t : DecisionTree} (hR : Reachable t)
    (hne : t.areas_ ≠ []) (hD : 0 < t.dimension_) {p : List Int}
    (hp : p.length = t.dimension_) :
    ∃ t2 : DecisionTree, t.ContainsPoint p = some (t2, BruteContains p t.areas_) := by
  rw [DecisionTree.ContainsPoint, if_pos hp]
  have hbuild : ∀ t3 : DecisionTree, t.RebuildTreeIfDirty = some t3 →
      ∃ t2, (match t3.root_ with
        | some rootNode => some (t3, rootNode.FindPoint p)
        | none => (none : Option (DecisionTree × Bool))) =
          some (t2, BruteContains p t.areas_) := by
    intro t3 h3
    obtain ⟨⟨hroot, -⟩, -, hareas, hdim⟩ := rebuildIfDirty_some h3 (reachable_inv hR)
    rw [hroot, hareas, hdim]
    refine ⟨t3, ?_⟩
    show some (t3, (BuildTree_ t.dimension_ t.areas_).FindPoint p) = _
    rw [findPoint_buildTree t.dimension_ hD t.areas_.length t.areas_ p rfl (by omega)]
  cases hById : t.RebuildTreeIfDirty with
  | none =>
    exfalso
    rw [DecisionTree.RebuildTreeIfDirty] at hById
    split at hById
    · rw [DecisionTree.RebuildTree] at hById
      split at hById
      · rename_i hlen
        exact hne (List.eq_nil_of_length_eq_zero hlen)
      · exact absurd hById (by simp)
    · exact absurd hById (by simp)
  | some t3 =>
    exact hbuild t3 hById

/-! ### Claim theorems -/

/-- C1: for every reachable index of dimension D (at least 1), whose inserted
regions all have exactly D intervals each with left <= right, with at least
one region inserted, containsPoint on any D-dimensional point returns the
same boolean as the brute-force linear scan over the inserted regions. -/
theorem claim_C1_equivalence_oracle (t : DecisionTree) (hR : Reachable t)
    (hD : 0 < t.dimension_) (hne : t.areas_ ≠ [])
    (harity : ∀ a ∈ t.areas_, a.length = t.dimension_)
    (hiv : ∀ a ∈ t.areas_, ∀ iv ∈ a, iv.left ≤ iv.right)
    (p : List Int) (hp : p.length = t.dimension_) :
    (t.ContainsPoint p).map (fun r => r.2) = some (BruteContains p t.areas_) := by
  obtain ⟨t2, h⟩ := containsPoint_spec hR hne hD hp
  rw [h]
  rfl

theorem claim_C1_witness :
    ((⟨1, true, none, [[Interval.mk 0 5]]⟩ : DecisionTree).ContainsPoint [3]).map
      (fun r => r.2) = some (BruteContains [3] [[Interval.mk 0 5]]) :=
  claim_C1_equivalence_oracle ⟨1, true, none, [[Interval.mk 0 5]]⟩
    (Reachable.add (Reachable.init 1)
      (show (DecisionTree.mkNew 1).AddArea [Interval.mk 0 5] =
        some ⟨1, true, none, [[Interval.mk 0 5]]⟩ from rfl))
    (by decide) (by decide) (by decide) (by decide) [3] (by decide)

/-- C2: for every reachable index (dimension at least 1, regions of arity D
with left <= right) and every inserted region R, a D-dimensional point lying
inside R at every dimension is reported as contained. -/
theorem claim_C2_containment_soundness (t : DecisionTree) (hR : Reachable t)
    (hD : 0 < t.dimension_)
    (harity : ∀ a ∈ t.areas_, a.length = t.dimension_)
    (hiv : ∀ a ∈ t.areas_, ∀ iv ∈ a, iv.left ≤ iv.right)
    (R : Region) (hRmem : R ∈ t.areas_)
    (p : List Int) (hp : p.length = t.dimension_)
    (hin : ∀ i : Nat, i < t.dimension_ →
      (R.getD i default).Contains (p.getD i 0) = true) :
    (t.ContainsPoint p).map (fun r => r.2) = some true := by
  have hne : t.areas_ ≠ [] := by
    intro hcon
    rw [hcon] at hRmem
    exact absurd hRmem (by simp)
  obtain ⟨t2, h⟩ := containsPoint_spec hR hne hD hp
  rw [h]
  have hA : AreaContainsPoint R p = true := by
    rw [AreaContainsPoint, List.all_eq_true]
    intro i hi
    have hi2 := List.mem_range.mp hi
    exact hin i (by omega)
  have hB : BruteContains p t.areas_ = true := by
    rw [BruteContains, List.any_eq_true]
    exact ⟨R, hRmem, hA⟩
  rw [hB]
  rfl

theorem claim_C2_witness :
    ((⟨1, true, none, [[Interval.mk 0 5]]⟩ : DecisionTree).ContainsPoint [3]).map
      (fun r => r.2) = some true :=
  claim_C2_containment_soundness ⟨1, true, none, [[Interval.mk 0 5]]⟩
    (Reachable.add (Reachable.init 1)
      (show (DecisionTree.mkNew 1).AddArea [Interval.mk 0 5] =
        some ⟨1, true, none, [[Interval.mk 0 5]]⟩ from rfl))
    (by decide) (by decide) (by decide)
    [Interval.mk 0 5] (by decide) [3] (by decide) (by decide)

/-- C3: at a node with a valid decision, findPoint scans the bucket first and
returns true on a match; otherwise a coordinate strictly below the reference
value descends into the left child (false when absent), strictly above
descends into the right child (false when absent), and exactly equal returns
false without descending into either child. -/
theorem claim_C3_routing (b : List Region) (l r : Option DecisionTreeNode)
    (dec : Decision) (p : List Int) (hval : dec.IsValid = true) :
    (DecisionTreeNode.mk b l r dec).FindPoint p =
      (if (DecisionTreeNode.mk b l r dec).CurrentNodeContainsPoint p then true
       else if p.getD dec.dimension_index.toNat 0 < dec.ref_value then
         (match l with | some lc => lc.FindPoint p | none => false)
       else if p.getD dec.dimension_index.toNat 0 > dec.ref_value then
         (match r with | some rc => rc.FindPoint p | none => false)
       else false) := by
  rw [FindPoint_eq]
  simp only [DecisionTreeNode.decision_mk, DecisionTreeNode.left_mk,
    DecisionTreeNode.right_mk, hval, Bool.not_true, Bool.false_eq_true, if_false]

theorem claim_C3_witness :
    (Decision.mk 0 5).IsValid = true ∧
    (DecisionTreeNode.mk [[Interval.mk 0 1]] none none (Decision.mk 0 5)).FindPoint [3] =
      (if (DecisionTreeNode.mk [[Interval.mk 0 1]] none none
            (Decision.mk 0 5)).CurrentNodeContainsPoint [3] then true
       else if List.getD [3] (Decision.mk 0 5).dimension_index.toNat 0 <
           (Decision.mk 0 5).ref_value then
         (match (none : Option DecisionTreeNode) with
          | some lc => lc.FindPoint [3]
          | none => false)
       else if List.getD [3] (Decision.mk 0 5).dimension_index.toNat 0 >
           (Decision.mk 0 5).ref_value then
         (match (none : Option DecisionTreeNode) with
          | some rc => rc.FindPoint [3]
          | none => false)
       else false) :=
  ⟨by decide, claim_C3_routing [[Interval.mk 0 1]] none none (Decision.mk 0 5) [3] (by decide)⟩

/-- All areas of a degenerate input go to push_left. -/
theorem goesLeft_of_ref_gt_right (dec : Decision) (a : Region)
    (h : (a.getD dec.dimension_index.toNat default).right < dec.ref_value) :
    goesLeft dec a = true := by
  simp only [goesLeft, goesBucket, Interval.Contains, Interval.ToTheLeft,
    Bool.and_eq_true, Bool.not_eq_true', Bool.and_eq_false_iff,
    decide_eq_true_eq, decide_eq_false_iff_not, gt_iff_lt, not_le]
  omega

/-- C4: the build terminates on every input (BuildTree_ is a total function
of its well-founded recursion), and on any non-empty list of pairwise
identical regions it produces a single node holding all of them in its
bucket, with the invalid sentinel decision and no children. -/
theorem claim_C4_degenerate (D : Nat) (areas : List Region) (R : Region)
    (hD : 0 < D) (hne : areas ≠ []) (hall : ∀ a ∈ areas, a = R) :
    BuildTree_ D areas =
      DecisionTreeNode.mk areas none none (Decision.mk (-1) (-1)) := by
  rw [BuildTree_]
  split
  · rfl
  · rename_i hlen
    have hlen1 : 1 ≤ areas.length := by
      cases areas with
      | nil => exact absurd rfl hne
      | cons x xs => simp
    obtain ⟨dS, hdS, hbest, -, -⟩ := bestDecision_spec D areas hD
    have hslen : (sortedByRightAt dS areas).length = areas.length := by
      rw [sortedByRightAt]
      exact (List.perm_insertionSort _ _).length_eq
    have hmlt : (areas.length - 1) / 2 < (sortedByRightAt dS areas).length := by
      omega
    have hmed : (sortedByRightAt dS areas).getD ((areas.length - 1) / 2) default = R := by
      rw [List.getD_eq_getElem _ _ hmlt]
      have hmem := List.getElem_mem hmlt
      exact hall _ ((List.mem_insertionSort _).mp hmem)
    have hdim : (bestDecision D areas).dimension_index.toNat = dS := by
      rw [hbest]
      simp [candidateDecision]
    have href : (bestDecision D areas).ref_value = (R.getD dS default).right + 1 := by
      rw [hbest, candidateDecision, hmed]
    have hgl : ∀ a ∈ areas, goesLeft (bestDecision D areas) a = true := by
      intro a ha
      apply goesLeft_of_ref_gt_right
      rw [hdim, href, hall a ha]
      omega
    have hfl : pushLeft (bestDecision D areas) areas = areas := by
      rw [pushLeft]
      exact List.filter_eq_self.mpr hgl
    rw [dif_pos (Or.inl (congrArg List.length hfl))]

theorem claim_C4_witness :
    BuildTree_ 1 [[Interval.mk 2 3], [Interval.mk 2 3]] =
      DecisionTreeNode.mk [[Interval.mk 2 3], [Interval.mk 2 3]] none none
        (Decision.mk (-1) (-1)) :=
  claim_C4_degenerate 1 [[Interval.mk 2 3], [Interval.mk 2 3]] [Interval.mk 2 3]
    (by decide) (by decide) (by decide)

/-- C5: after any completed rebuild from a non-empty region list (regions of
arity D at least 1, intervals left <= right), the recursive bucket-size sum
equals the length of the full inserted-region list. -/
theorem claim_C5_bucket_conservation (t t2 : DecisionTree)
    (hD : 0 < t.dimension_)
    (harity : ∀ a ∈ t.areas_, a.length = t.dimension_)
    (hiv : ∀ a ∈ t.areas_, ∀ iv ∈ a, iv.left ≤ iv.right)
    (hreb : t.RebuildTree = some t2) :
    t2.SumAreasToCheckSizes = some (t2.GetAllAreas).length := by
  obtain ⟨ht2, hne⟩ := rebuildTree_some hreb
  subst ht2
  rw [DecisionTree.SumAreasToCheckSizes]
  show some ((BuildTree_ t.dimension_ t.areas_).SumAreasToCheckSizes) = _
  rw [sumAreas_buildTree t.dimension_ t.areas_.length t.areas_ rfl]
  rfl

theorem claim_C5_witness :
    (⟨1, true, some (BuildTree_ 1 [[Interval.mk 0 5]]),
        [[Interval.mk 0 5]]⟩ : DecisionTree).SumAreasToCheckSizes =
      some ((⟨1, true, some (BuildTree_ 1 [[Interval.mk 0 5]]),
        [[Interval.mk 0 5]]⟩ : DecisionTree).GetAllAreas).length :=
  claim_C5_bucket_conservation ⟨1, true, none, [[Interval.mk 0 5]]⟩
    ⟨1, true, some (BuildTree_ 1 [[Interval.mk 0 5]]), [[Interval.mk 0 5]]⟩
    (by decide) (by decide) (by decide) rfl

/-! ### The concrete scenario of C6 -/

theorem buildTree_single (D : Nat) (a : Region) :
    BuildTree_ D [a] = DecisionTreeNode.mk [a] none none (Decision.mk (-1) (-1)) := by
  rw [BuildTree_]
  rfl

/-- The tree actually built from the two disjoint 1-D regions of the C6
scenario: the chosen decision is dimension 0 with reference value 5 + 1 = 6,
which the region [6,10] contains, so [6,10] stays in the bucket of the
splitting node, [0,5] forms the left child, and there is no right child. -/
theorem buildTree_c6 :
    BuildTree_ 1 [[Interval.mk 0 5], [Interval.mk 6 10]] =
      DecisionTreeNode.mk [[Interval.mk 6 10]]
        (some (DecisionTreeNode.mk [[Interval.mk 0 5]] none none (Decision.mk (-1) (-1))))
        none (Decision.mk 0 6) := by
  have hbd : bestDecision 1 [[Interval.mk 0 5], [Interval.mk 6 10]] = Decision.mk 0 6 := by
    decide
  have hpl : pushLeft (Decision.mk 0 6) [[Interval.mk 0 5], [Interval.mk 6 10]] =
      [[Interval.mk 0 5]] := by decide
  have hpr : pushRight (Decision.mk 0 6) [[Interval.mk 0 5], [Interval.mk 6 10]] =
      ([] : List Region) := by decide
  have hbk : bucketAreas (Decision.mk 0 6) [[Interval.mk 0 5], [Interval.mk 6 10]] =
      [[Interval.mk 6 10]] := by decide
  rw [BuildTree_]
  rw [if_neg (by decide)]
  rw [dif_neg (by rw [hbd, hpl, hpr]; decide)]
  rw [hbd, hpl, hpr, hbk]
  rw [if_neg (by decide), if_pos (by decide), buildTree_single]

/-- C6 counterexample: the claim says the built tree separates the two
regions into different children of the splitting node, whose own bucket is
empty.  In fact the bucket of the splitting node is non-empty (it holds
[6,10]) and the right child is absent. -/
theorem claim_C6_counterexample :
    ¬ ((BuildTree_ 1 [[Interval.mk 0 5], [Interval.mk 6 10]]).areas_to_check = [] ∧
       (BuildTree_ 1 [[Interval.mk 0 5], [Interval.mk 6 10]]).left ≠ none ∧
       (BuildTree_ 1 [[Interval.mk 0 5], [Interval.mk 6 10]]).right ≠ none) := by
  rw [buildTree_c6]
  simp

/-- C6 amended: with D = 1 and regions [0,5] and [6,10] inserted, the built
tree keeps [6,10] in the bucket of the splitting node (its interval contains
the chosen threshold 6), puts [0,5] alone into the left child, and has no
right child; the query results are as the claim states: containsPoint([5])
and containsPoint([6]) are true and containsPoint([100]) is false. -/
theorem claim_C6_amended :
    BuildTree_ 1 [[Interval.mk 0 5], [Interval.mk 6 10]] =
      DecisionTreeNode.mk [[Interval.mk 6 10]]
        (some (DecisionTreeNode.mk [[Interval.mk 0 5]] none none (Decision.mk (-1) (-1))))
        none (Decision.mk 0 6) ∧
    ((⟨1, true, none, [[Interval.mk 0 5], [Interval.mk 6 10]]⟩ :
        DecisionTree).ContainsPoint [5]).map (fun r => r.2) = some true ∧
    ((⟨1, true, none, [[Interval.mk 0 5], [Interval.mk 6 10]]⟩ :
        DecisionTree).ContainsPoint [6]).map (fun r => r.2) = some true ∧
    ((⟨1, true, none, [[Interval.mk 0 5], [Interval.mk 6 10]]⟩ :
        DecisionTree).ContainsPoint [100]).map (fun r => r.2) = some false := by
  refine ⟨buildTree_c6, ?_, ?_, ?_⟩
  · show some ((BuildTree_ 1 [[Interval.mk 0 5], [Interval.mk 6 10]]).FindPoint [5])
      = some true
    rw [buildTree_c6, FindPoint_eq]
    rw [if_neg (by decide)]
    simp only [DecisionTreeNode.decision_mk, DecisionTreeNode.left_mk]
    rw [if_neg (by decide), if_pos (by decide), FindPoint_eq, if_pos (by decide)]
  · show some ((BuildTree_ 1 [[Interval.mk 0 5], [Interval.mk 6 10]]).FindPoint [6])
      = some true
    rw [buildTree_c6, FindPoint_eq]
    rw [if_pos (by decide)]
  · show some ((BuildTree_ 1 [[Interval.mk 0 5], [Interval.mk 6 10]]).FindPoint [100])
      = some false
    rw [buildTree_c6, FindPoint_eq]
    rw [if_neg (by decide)]
    simp only [DecisionTreeNode.decision_mk, DecisionTreeNode.right_mk]
    rw [if_neg (by decide), if_neg (by decide), if_pos (by decide)]

/-! ### The dirty flag (C7) -/

/-- A completed RebuildTreeIfDirty always leaves the index non-dirty. -/
theorem rebuildIfDirty_dirty_false {t t2 : DecisionTree}
    (h : t.RebuildTreeIfDirty = some t2) : t2.dirty_ = false := by
  rw [DecisionTree.RebuildTreeIfDirty] at h
  split at h
  · cases hreb : t.RebuildTree with
    | none =>
      rw [hreb] at h
      exact absurd h (by simp)
    | some t3 =>
      rw [hreb, Option.map_some'] at h
      injection h with h2
      subst h2
      rfl
  · rename_i hdirty
    injection h with h2
    subst h2
    simpa using hdirty

/-- C7 counterexample: after inserting one region into a fresh index and
calling the explicit rebuild, the rebuild completes (returns a new state)
and the index is still dirty, contradicting the claim that any completed
rebuild clears the flag. -/
theorem claim_C7_counterexample :
    (((DecisionTree.mkNew 1).AddArea [Interval.mk 0 0]).bind
      DecisionTree.RebuildTree).map DecisionTree.dirty_ = some true := rfl

/-- C7 amended: every insertion sets the dirty flag; a completed
rebuildIfDirty (also the one implicit in containsPoint) leaves the index
non-dirty; but an explicit rebuild() leaves the dirty flag exactly as it
was, so it does not clear the flag. -/
theorem claim_C7_amended :
    (∀ (t t2 : DecisionTree) (a : Region), t.AddArea a = some t2 → t2.dirty_ = true) ∧
    (∀ t t2 : DecisionTree, t.RebuildTreeIfDirty = some t2 → t2.dirty_ = false) ∧
    (∀ t t2 : DecisionTree, t.RebuildTree = some t2 → t2.dirty_ = t.dirty_) ∧
    (∀ (t t2 : DecisionTree) (p : List Int) (b : Bool),
      t.ContainsPoint p = some (t2, b) → t2.dirty_ = false) := by
  refine ⟨?_, ?_, ?_, ?_⟩
  · intro t t2 a h
    rw [DecisionTree.AddArea] at h
    split at h
    · injection h with h2
      subst h2
      rfl
    · exact absurd h (by simp)
  · intro t t2 h
    exact rebuildIfDirty_dirty_false h
  · intro t t2 h
    obtain ⟨ht2, -⟩ := rebuildTree_some h
    subst ht2
    rfl
  · intro t t2 p b h
    rw [DecisionTree.ContainsPoint] at h
    split at h
    · split at h
      · rename_i t3 hById
        split at h
        · injection h with h2
          have h3 : t3 = t2 := congrArg Prod.fst h2
          rw [← h3]
          exact rebuildIfDirty_dirty_false hById
        · exact absurd h (by simp)
      · exact absurd h (by simp)
    · exact absurd h (by simp)

theorem claim_C7_witness :
    ((DecisionTree.mkNew 2).AddArea [Interval.mk 0 1, Interval.mk 2 3]).map
      DecisionTree.dirty_ = some true :=
  congrArg (fun b => some b) (claim_C7_amended.1 (DecisionTree.mkNew 2)
    ⟨2, true, none, [[Interval.mk 0 1, Interval.mk 2 3]]⟩
    [Interval.mk 0 1, Interval.mk 2 3] rfl)

/-! ### Query on an empty index (C8) -/

/-- C8: containsPoint on a reachable index into which no region has ever
been inserted fails (returns none, the model of the assertion failure in
BuildTree_ reached through the forced rebuild or of the arity check), never
a boolean. -/
theorem claim_C8_empty_query_fails (t : DecisionTree) (hR : Reachable t)
    (hempty : t.areas_ = []) (p : List Int) :
    t.ContainsPoint p = none := by
  rw [DecisionTree.ContainsPoint]
  split
  · have hdirty : t.dirty_ = true := by
      rcases reachable_inv hR with hd | ⟨-, hne⟩
      · exact hd
      · exact absurd hempty hne
    have hnone : t.RebuildTreeIfDirty = none := by
      rw [DecisionTree.RebuildTreeIfDirty, if_pos hdirty, DecisionTree.RebuildTree,
        if_pos (by rw [hempty]; rfl)]
      rfl
    rw [hnone]
  · rfl

theorem claim_C8_witness :
    (DecisionTree.mkNew 3).ContainsPoint [1, 2, 3] = none :=
  claim_C8_empty_query_fails (DecisionTree.mkNew 3) (Reachable.init 3) rfl [1, 2, 3]

/-! ### The candidate decisions and the retained decision (C9) -/

/-- The ascending sequence of right bounds at a dimension, as the claim
describes it (the sort key sequence, sorted). -/
def specSortedRights (areas : List Region) (dimension_index : Nat) : List Int :=
  List.insertionSort (fun x y : Int => x ≤ y)
    (areas.map fun a => (a.getD dimension_index default).right)

/-- Sorting the regions by their right bound and reading the right bounds
off is sorting the right bounds. -/
theorem map_right_sorted (dimension_index : Nat) (areas : List Region) :
    (sortedByRightAt dimension_index areas).map
        (fun a => (a.getD dimension_index default).right) =
      specSortedRights areas dimension_index := by
  rw [sortedByRightAt, specSortedRights]
  exact List.map_insertionSort _ _ _ _ (fun a _ b _ => Iff.rfl)

/-- The candidate reference value is one plus the lower-median element of
the ascending sequence of right bounds. -/
theorem candidate_ref (areas : List Region) (dimension_index : Nat)
    (hne : areas ≠ []) :
    (candidateDecision areas dimension_index).ref_value =
      (specSortedRights areas dimension_index).getD ((areas.length - 1) / 2) 0 + 1 := by
  have hlen : 0 < areas.length := List.length_pos.mpr hne
  have hslen : (sortedByRightAt dimension_index areas).length = areas.length := by
    rw [sortedByRightAt]
    exact (List.perm_insertionSort _ _).length_eq
  have hm : (areas.length - 1) / 2 < (sortedByRightAt dimension_index areas).length := by
    omega
  have hm3 : (areas.length - 1) / 2 <
      ((sortedByRightAt dimension_index areas).map
        (fun a => (a.getD dimension_index default).right)).length := by
    rw [List.length_map]
    omega
  rw [candidateDecision]
  show (((sortedByRightAt dimension_index areas).getD ((areas.length - 1) / 2)
      default).getD dimension_index default).right + 1 = _
  congr 1
  rw [← map_right_sorted dimension_index areas]
  rw [List.getD_eq_getElem _ _ hm, List.getD_eq_getElem _ _ hm3, List.getElem_map]

/-- C9: for at least two regions and a positive dimension count, every
candidate decision at dimension d has threshold one plus the element at
index (n-1)/2 of the ascending sequence of right bounds at d, and the
retained decision is the candidate of a dimension whose cut-through count
(number of regions whose interval at d contains the threshold) is minimal
over all dimensions, with the earliest dimension winning ties. -/
theorem claim_C9_best_decision (D : Nat) (areas : List Region)
    (hD : 0 < D) (h2 : 2 ≤ areas.length) :
    (∀ d : Nat, d < D →
      (candidateDecision areas d).dimension_index = (d : Int) ∧
      (candidateDecision areas d).ref_value =
        (specSortedRights areas d).getD ((areas.length - 1) / 2) 0 + 1) ∧
    ∃ dStar : Nat, dStar < D ∧
      bestDecision D areas = candidateDecision areas dStar ∧
      (∀ d : Nat, d < D →
        cutThroughCount areas dStar (candidateDecision areas dStar).ref_value ≤
          cutThroughCount areas d (candidateDecision areas d).ref_value) ∧
      (∀ d : Nat, d < dStar →
        cutThroughCount areas dStar (candidateDecision areas dStar).ref_value <
          cutThroughCount areas d (candidateDecision areas d).ref_value) := by
  have hne : areas ≠ [] := by
    intro h
    rw [h] at h2
    simp at h2
  refine ⟨fun d _ => ⟨rfl, candidate_ref areas d hne⟩, ?_⟩
  obtain ⟨dS, hd1, hd2, hd3, hd4⟩ := bestDecision_spec D areas hD
  exact ⟨dS, hd1, hd2, fun d hd => hd3 d hd, fun d hd => hd4 d hd⟩

theorem claim_C9_witness :
    (∀ d : Nat, d < 1 →
      (candidateDecision [[Interval.mk 0 5], [Interval.mk 6 10]] d).dimension_index
        = (d : Int) ∧
      (candidateDecision [[Interval.mk 0 5], [Interval.mk 6 10]] d).ref_value =
        (specSortedRights [[Interval.mk 0 5], [Interval.mk 6 10]] d).getD
          ((([[Interval.mk 0 5], [Interval.mk 6 10]] : List Region).length - 1) / 2) 0
          + 1) ∧
    ∃ dStar : Nat, dStar < 1 ∧
      bestDecision 1 [[Interval.mk 0 5], [Interval.mk 6 10]] =
        candidateDecision [[Interval.mk 0 5], [Interval.mk 6 10]] dStar ∧
      (∀ d : Nat, d < 1 →
        cutThroughCount [[Interval.mk 0 5], [Interval.mk 6 10]] dStar
            (candidateDecision [[Interval.mk 0 5], [Interval.mk 6 10]] dStar).ref_value ≤
          cutThroughCount [[Interval.mk 0 5], [Interval.mk 6 10]] d
            (candidateDecision [[Interval.mk 0 5], [Interval.mk 6 10]] d).ref_value) ∧
      (∀ d : Nat, d < dStar →
        cutThroughCount [[Interval.mk 0 5], [Interval.mk 6 10]] dStar
            (candidateDecision [[Interval.mk 0 5], [Interval.mk 6 10]] dStar).ref_value <
          cutThroughCount [[Interval.mk 0 5], [Interval.mk 6 10]] d
            (candidateDecision [[Interval.mk 0 5], [Interval.mk 6 10]] d).ref_value) :=
  claim_C9_best_decision 1 [[Interval.mk 0 5], [Interval.mk 6 10]] (by decide) (by decide)

/-! ### The separation invariant (C10) -/

/-- C10: every tree built from a non-empty list of regions whose intervals
satisfy left <= right satisfies the separation invariant: below a node with
a valid decision (dimension d, reference value t), areas stored in the left
subtree have right bound strictly below t at d, areas stored in the right
subtree have left bound strictly above t at d, and any area stored in the
subtree of the node that contains t at d lies in the bucket of that node. -/
theorem claim_C10_separation (D : Nat) (areas : List Region)
    (hne : areas ≠ []) (hiv : ∀ a ∈ areas, ∀ iv ∈ a, iv.left ≤ iv.right) :
    NodeInv (BuildTree_ D areas) :=
  nodeInv_buildTree D areas.length areas rfl

theorem claim_C10_witness :
    NodeInv (BuildTree_ 1 [[Interval.mk 0 5], [Interval.mk 6 10]]) :=
  claim_C10_separation 1 [[Interval.mk 0 5], [Interval.mk 6 10]] (by decide) (by decide)

end BDT
